import Mathlib

/-!
Verification of the brainfuck compiler/interpreter pipeline (parser,
peephole optimizer, tape-machine interpreter) against its specification.

The definitions below are a shallow embedding of `src/rust2/src/parse.rs`,
`src/rust2/src/opts.rs` and `src/rust2/src/lir/interpreter.rs`.  Machine
integers are modelled as `Nat`/`Int`: `u8` values live in `[0, 256)` with
explicit `% 256` wraparound where the Rust code wraps, `u32`/`usize`
quantities are plain `Nat` (the source `try_into().unwrap()` calls never
overflow on the inputs considered here), and `i32` offsets are `Int`.
Fallible operations return `Option`; undefined behaviour of the unchecked
tape accesses is modelled as an explicit failure outcome.
-/

set_option maxHeartbeats 1000000

namespace Brainfuck

/-- Byte range into the original source (`parse.rs`, `struct Span`).
`start`/`len` are `u32` in the source; sources considered here are far
below `2^32` bytes, so `Nat` is faithful. -/
structure Span where
  start : Nat
  len : Nat
deriving DecidableEq, Repr

namespace Span

/-- `Span::single` -/
def single (idx : Nat) : Span := { start := idx, len := 1 }

/-- `Span::start_end` (half-open `start..end`) -/
def start_end (s e : Nat) : Span := { start := s, len := e - s }

/-- `Span::start_end_incl` (inclusive `start..=end`) -/
def start_end_incl (s e : Nat) : Span := { start := s, len := e - s + 1 }

/-- `Span::end` -/
def endPos (s : Span) : Nat := s.start + s.len

/-- `Span::merge` -/
def merge (s other : Span) : Span :=
  start_end (min s.start other.start) (max s.endPos other.endPos)

end Span

/-- Syntax tree node (`parse.rs`, `enum Instr`). -/
inductive Instr where
  | add
  | sub
  | right
  | left
  | out
  | inp
  | loop (body : List (Instr × Span))
deriving Repr

/-- Result of `parse_loop`: the loop body, data about the closing bracket,
and the not-yet-consumed remainder of the input stream.  The remainder is
bundled with a strict length bound so that the caller's continued scan is
well-founded (the Rust code consumes from a shared mutable iterator; here
the iterator is passed and returned explicitly). -/
def PRes (α : Type) (n : Nat) : Type :=
  List (Instr × Span) × α × { rest : List (Nat × Nat) // rest.length < n }

/-- Weaken the length bound on a parse result. -/
def PRes.relax {α : Type} {m n : Nat} (h : m ≤ n) : PRes α m → PRes α n :=
  fun r => (r.1, r.2.1, ⟨r.2.2.val, Nat.lt_of_lt_of_le r.2.2.property h⟩)

mutual

/-- `parse.rs::parse_loop`, body scan.  Consumes `(index, byte)` pairs until
the matching `]`; returns the accumulated instructions, the index of the
closing `]`, and the remaining input. -/
def parse_loop_go : (src : List (Nat × Nat)) → Nat → List (Instr × Span) →
    Option (PRes Nat src.length)
  | [], _, _ => none
  | (idx, b) :: rest, depth, acc =>
    if b = 43 then
      (parse_loop_go rest depth (acc ++ [(Instr.add, Span.single idx)])).map
        (PRes.relax (Nat.le_succ _))
    else if b = 45 then
      (parse_loop_go rest depth (acc ++ [(Instr.sub, Span.single idx)])).map
        (PRes.relax (Nat.le_succ _))
    else if b = 62 then
      (parse_loop_go rest depth (acc ++ [(Instr.right, Span.single idx)])).map
        (PRes.relax (Nat.le_succ _))
    else if b = 60 then
      (parse_loop_go rest depth (acc ++ [(Instr.left, Span.single idx)])).map
        (PRes.relax (Nat.le_succ _))
    else if b = 46 then
      (parse_loop_go rest depth (acc ++ [(Instr.out, Span.single idx)])).map
        (PRes.relax (Nat.le_succ _))
    else if b = 44 then
      (parse_loop_go rest depth (acc ++ [(Instr.inp, Span.single idx)])).map
        (PRes.relax (Nat.le_succ _))
    else if b = 91 then
      match parse_loop rest (depth + 1) idx with
      | none => none
      | some (body, sp, ⟨rest1, h1⟩) =>
        (parse_loop_go rest1 depth (acc ++ [(Instr.loop body, sp)])).map
          (PRes.relax (Nat.le_succ_of_le (Nat.le_of_lt h1)))
    else if b = 93 then
      some (acc, idx, ⟨rest, Nat.lt_succ_self _⟩)
    else
      (parse_loop_go rest depth acc).map (PRes.relax (Nat.le_succ _))
  termination_by src _ _ => (src.length, 0)
  decreasing_by
    all_goals simp_wf
    all_goals first
      | exact Prod.Lex.right _ (by omega)
      | exact Prod.Lex.left _ _ (by omega)

/-- `parse.rs::parse_loop`.  Fails when the nesting depth exceeds 1000
(the `MAX_DEPTH` guard) or when the input ends before the matching `]`. -/
def parse_loop (src : List (Nat × Nat)) (depth : Nat) (start_idx : Nat) :
    Option (PRes Span src.length) :=
  if depth > 1000 then none
  else
    match parse_loop_go src depth [] with
    | none => none
    | some (instrs, end_idx, r) =>
      some (instrs, Span.start_end_incl start_idx end_idx, r)
  termination_by (src.length, 1)
  decreasing_by
    all_goals exact Prod.Lex.right _ (by omega)

/-- `parse.rs::parse`, main scan loop over the top-level byte stream. -/
def parse_go : (src : List (Nat × Nat)) → List (Instr × Span) →
    Option (List (Instr × Span))
  | [], acc => some acc
  | (idx, b) :: rest, acc =>
    if b = 43 then parse_go rest (acc ++ [(Instr.add, Span.single idx)])
    else if b = 45 then parse_go rest (acc ++ [(Instr.sub, Span.single idx)])
    else if b = 62 then parse_go rest (acc ++ [(Instr.right, Span.single idx)])
    else if b = 60 then parse_go rest (acc ++ [(Instr.left, Span.single idx)])
    else if b = 46 then parse_go rest (acc ++ [(Instr.out, Span.single idx)])
    else if b = 44 then parse_go rest (acc ++ [(Instr.inp, Span.single idx)])
    else if b = 91 then
      match parse_loop rest 0 idx with
      | none => none
      | some (body, sp, ⟨rest1, _⟩) =>
        parse_go rest1 (acc ++ [(Instr.loop body, sp)])
    else if b = 93 then none
    else parse_go rest acc
  termination_by src _ => (src.length, 2)
  decreasing_by
    all_goals simp_wf
    all_goals first
      | exact Prod.Lex.right _ (by omega)
      | exact Prod.Lex.left _ _ (by omega)

end

/-- `parse.rs::parse`: parse an enumerated byte stream into a syntax tree. -/
def parse (src : List (Nat × Nat)) : Option (List (Instr × Span)) :=
  parse_go src []

/-! ## Optimizer IR (`opts.rs`) -/

mutual

/-- `opts.rs::StmtKind`.  `Add`/`Sub` carry an `i32` offset and a `u8`
count; `Right`/`Left` carry a `usize` count.  The `Ir` wrapper around the
statement list is inlined as a plain `List Stmt`. -/
inductive StmtKind : Type where
  | Add (offset : Int) (n : Nat)
  | Sub (offset : Int) (n : Nat)
  | MoveAddTo (offset : Int)
  | Right (n : Nat)
  | Left (n : Nat)
  | Loop (body : List Stmt)
  | Out
  | In
  | SetN (n : Nat)

/-- `opts.rs::Stmt`: a statement kind together with its source span. -/
inductive Stmt : Type where
  | mk (kind : StmtKind) (span : Span)

end

/-- `Stmt::kind` -/
def Stmt.kind : Stmt → StmtKind
  | .mk k _ => k

/-- `Stmt::span` -/
def Stmt.span : Stmt → Span
  | .mk _ s => s

/-- `opts.rs::ast_to_ir`: lower the syntax tree to the flat IR. -/
def ast_to_ir : List (Instr × Span) → List Stmt
  | [] => []
  | (instr, span) :: rest =>
    (match instr with
     | .add => Stmt.mk (.Add 0 1) span
     | .sub => Stmt.mk (.Sub 0 1) span
     | .right => Stmt.mk (.Right 1) span
     | .left => Stmt.mk (.Left 1) span
     | .out => Stmt.mk .Out span
     | .inp => Stmt.mk .In span
     | .loop body => Stmt.mk (.Loop (ast_to_ir body)) span) :: ast_to_ir rest

/-- The merge test of `pass_group`'s fold (the four guarded match arms of
the `(&mut old.kind, next.kind)` match).  Returns the merged statement when
one of the coalescing arms fires, `none` otherwise.  The `u8` counts of
`Add`/`Sub` add with 8-bit wraparound (release-mode Rust `+=`); the `usize`
counts of `Right`/`Left` add exactly. -/
def canMerge (old next : Stmt) : Option Stmt :=
  match old, next with
  | .mk (.Add offset_a a) osp, .mk (.Add offset_b b) nsp =>
    if a < 255 ∧ offset_a = offset_b then
      some (.mk (.Add offset_a ((a + b) % 256)) (osp.merge nsp))
    else none
  | .mk (.Sub offset_a a) osp, .mk (.Sub offset_b b) nsp =>
    if a < 255 ∧ offset_a = offset_b then
      some (.mk (.Sub offset_a ((a + b) % 256)) (osp.merge nsp))
    else none
  | .mk (.Right a) osp, .mk (.Right b) nsp =>
    if a < 255 then some (.mk (.Right (a + b)) (osp.merge nsp)) else none
  | .mk (.Left a) osp, .mk (.Left b) nsp =>
    if a < 255 then some (.mk (.Left (a + b)) (osp.merge nsp)) else none
  | _, _ => none

mutual

/-- `opts.rs::pass_group`: coalesce runs of identical adjacent statements.
The Rust implementation folds the statement list into a fresh vector,
mutating the vector's last element on a merge; here the accumulator is kept
in reverse order (head = most recently pushed). -/
def pass_group (l : List Stmt) : List Stmt :=
  (pass_group_fold [] l).reverse

/-- The fold of `pass_group` (accumulator reversed). -/
def pass_group_fold (acc : List Stmt) : List Stmt → List Stmt
  | [] => acc
  | next :: rest => pass_group_fold (pass_group_step acc next) rest

/-- One fold step of `pass_group`: merge `next` into the last pushed
statement when possible, otherwise push it (recursing into loop bodies). -/
def pass_group_step (acc : List Stmt) (next : Stmt) : List Stmt :=
  match acc with
  | [] =>
    match next with
    | .mk (.Loop body) span => [Stmt.mk (.Loop (pass_group body)) span]
    | s => [s]
  | old :: older =>
    match canMerge old next with
    | some merged => merged :: older
    | none =>
      match next with
      | .mk (.Loop body) span => Stmt.mk (.Loop (pass_group body)) span :: old :: older
      | s => s :: old :: older

end

/-- The slice pattern of `pass_find_set_null`:
`[Stmt { kind: StmtKind::Sub(0, _), .. }]`. -/
def isSetNullBody : List Stmt → Bool
  | [.mk (.Sub 0 _) _] => true
  | _ => false

/-- `opts.rs::pass_find_set_null`: rewrite `Loop([Sub(0, _)])` to `SetN(0)`,
otherwise recurse into loop bodies. -/
def pass_find_set_null : List Stmt → List Stmt
  | [] => []
  | stmt :: rest =>
    (match stmt with
     | .mk (.Loop body) span =>
       if isSetNullBody body then Stmt.mk (.SetN 0) span
       else Stmt.mk (.Loop (pass_find_set_null body)) span
     | s => s) :: pass_find_set_null rest

/-- The slice pattern of `pass_move_add_to`: a two-statement body that is
`{Sub(0,1), Add(offset,1)}` in either order; returns the `Add`'s offset. -/
def moveAddBodyOffset : List Stmt → Option Int
  | [.mk (.Sub 0 1) _, .mk (.Add offset 1) _] => some offset
  | [.mk (.Add offset 1) _, .mk (.Sub 0 1) _] => some offset
  | _ => none

/-- `opts.rs::pass_move_add_to`: rewrite a loop whose body is exactly
`{Sub(0,1), Add(offset,1)}` (either order) to `MoveAddTo(offset)`,
otherwise recurse into loop bodies. -/
def pass_move_add_to : List Stmt → List Stmt
  | [] => []
  | stmt :: rest =>
    (match stmt with
     | .mk (.Loop body) span =>
       match moveAddBodyOffset body with
       | some offset => Stmt.mk (.MoveAddTo offset) span
       | none => Stmt.mk (.Loop (pass_move_add_to body)) span
     | s => s) :: pass_move_add_to rest

/-- `opts.rs::WindowPassAction`. -/
inductive WindowPassAction : Type where
  | None
  | Merge (kind : StmtKind)
  | RemoveAll

/-! The generic sliding-window rewrite engine `opts.rs::window_pass`.
The Rust engine scans a vector with an index `i`; at the top of every
iteration it recurses into the statement at `i` if it is a loop (the
recursion parameter `pass_recur` of every caller is that same pass, i.e.
`window_pass` with the same action, so the recursion is modelled by the
engine calling itself), then stops if fewer than `N` statements remain,
and otherwise applies the decision function to the `N`-statement window:
`None` advances `i` by one, `Merge` replaces the window by one merged
statement leaving `i` unchanged, `RemoveAll` deletes the window leaving
`i` unchanged.  Here the scan is split into the processed prefix (already
emitted), the current, already loop-recursed statement `cur` at index `i`,
and the unprocessed `rest`.  None of the actions in this crate ever merges
to a `Loop`, so the merged statement needs no loop recursion.  `N ≥ 2` is
required (the source asserts `N > 0` and instantiates `N = 2, 3`). -/

mutual

/-- Node weight used as the termination measure of the window engine: a
statement weighs one plus the weight of a nested loop body. -/
def stmtWeight : Stmt → Nat
  | .mk (.Loop body) _ => 1 + listWeight body
  | _ => 1

/-- List version of `stmtWeight` (each element contributes at least 1). -/
def listWeight : List Stmt → Nat
  | [] => 0
  | s :: rest => 1 + stmtWeight s + listWeight rest

end

theorem listWeight_drop_le (l : List Stmt) (k : Nat) :
    listWeight (l.drop k) ≤ listWeight l := by
  induction l generalizing k with
  | nil => simp [List.drop]
  | cons s rest ih =>
    match k with
    | 0 => simp
    | k + 1 =>
      have h1 := ih k
      simp only [List.drop, listWeight]
      omega

theorem listWeight_drop_lt (l : List Stmt) (k : Nat) (hk : 1 ≤ k)
    (hl : 1 ≤ l.length) : listWeight (l.drop k) < listWeight l := by
  match l, k with
  | s :: rest, k + 1 =>
    have h1 := listWeight_drop_le rest k
    simp only [List.drop, listWeight]
    omega

mutual

/-- `opts.rs::window_pass`, entry: recurse into the head if it is a loop,
then start scanning with it as the window's leading statement. -/
def window_pass (N : Nat) (hN : 2 ≤ N) (f : List Stmt → WindowPassAction) :
    List Stmt → List Stmt
  | [] => []
  | a :: rest => window_go N hN f (process_head N hN f a) rest
  termination_by l => 3 * listWeight l + 2
  decreasing_by
    · simp_wf; simp only [listWeight]; omega
    · simp_wf; simp only [listWeight]; omega

/-- The per-position loop recursion at the top of `window_pass`'s scan
loop (`if let StmtKind::Loop(body) = &mut a.kind { pass_recur(body) }`). -/
def process_head (N : Nat) (hN : 2 ≤ N) (f : List Stmt → WindowPassAction) :
    Stmt → Stmt
  | .mk (.Loop body) span => .mk (.Loop (window_pass N hN f body)) span
  | s => s
  termination_by s => 3 * stmtWeight s
  decreasing_by
    simp_wf; simp only [stmtWeight]; omega

/-- `opts.rs::window_pass`, scan loop: `cur` is the (already
loop-recursed) statement at the cursor, `rest` the statements after it. -/
def window_go (N : Nat) (hN : 2 ≤ N) (f : List Stmt → WindowPassAction)
    (cur : Stmt) (rest : List Stmt) : List Stmt :=
  if _hr : rest.length + 1 < N then
    -- fewer than `N` statements remain: the scan stops (`break`),
    -- leaving the remaining statements untouched
    cur :: rest
  else
    let w := cur :: rest.take (N - 1)
    let mergedSpan := cur.span.merge ((rest.take (N - 1)).getLastD cur).span
    match f w with
    | .None =>
      match rest with
      | [] => [cur] -- unreachable: `¬ hr` with `2 ≤ N` forces `rest ≠ []`
      | next :: rest1 => cur :: window_go N hN f (process_head N hN f next) rest1
    | .Merge kind => window_go N hN f (.mk kind mergedSpan) (rest.drop (N - 1))
    | .RemoveAll => window_pass N hN f (rest.drop (N - 1))
  termination_by 3 * listWeight rest + 1
  decreasing_by
    · simp_wf; simp only [listWeight]; omega
    · simp_wf; simp only [listWeight]; omega
    · simp_wf
      have h1 := listWeight_drop_lt rest (N - 1) (by omega) (by omega)
      omega
    · simp_wf
      have h1 := listWeight_drop_lt rest (N - 1) (by omega) (by omega)
      omega

end

/-- The decision function of `opts.rs::pass_set_n`: fold
`SetN(n); Add(0,m)` / `SetN(n); Sub(0,m)` into one `SetN` with 8-bit
wrapping arithmetic. -/
def setNAction : List Stmt → WindowPassAction
  | [a, b] =>
    match a.kind with
    | .SetN before =>
      match b.kind with
      | .Add 0 n => .Merge (.SetN ((before + n) % 256))
      | .Sub 0 n => .Merge (.SetN ((before + (256 - n % 256)) % 256))
      | _ => .None
    | _ => .None
  | _ => .None

/-- `opts.rs::pass_set_n`. -/
def pass_set_n (l : List Stmt) : List Stmt :=
  window_pass 2 (Nat.le_refl 2) setNAction l

/-- The decision function of `opts.rs::pass_cancel_left_right_add_sub`:
adjacent opposite pointer moves, or same-offset opposite value deltas,
cancel (equal counts) or net out (unequal counts). -/
def cancelAction : List Stmt → WindowPassAction
  | [a, b] =>
    match a.kind, b.kind with
    | .Right r, .Left l | .Left l, .Right r =>
      if r = l then .RemoveAll
      else if r < l then .Merge (.Left (l - r))
      else .Merge (.Right (r - l))
    | .Add offset_a r, .Sub offset_b l | .Sub offset_a l, .Add offset_b r =>
      if offset_a = offset_b then
        if r = l then .RemoveAll
        else if r < l then .Merge (.Sub offset_a (l - r))
        else .Merge (.Add offset_a (r - l))
      else .None
    | _, _ => .None
  | _ => .None

/-- `opts.rs::pass_cancel_left_right_add_sub`. -/
def pass_cancel_left_right_add_sub (l : List Stmt) : List Stmt :=
  window_pass 2 (Nat.le_refl 2) cancelAction l

/-- The decision function of `opts.rs::pass_add_sub_offset`: collapse
`Right(r) Add(0,n) Left(r)` (and the three variants) into a single
offset `Add`/`Sub`. -/
def addSubOffsetAction : List Stmt → WindowPassAction
  | [a, b, c] =>
    match a.kind, b.kind, c.kind with
    | .Right r, .Add 0 n, .Left l =>
      if r = l then .Merge (.Add (Int.ofNat r) n) else .None
    | .Left l, .Add 0 n, .Right r =>
      if r = l then .Merge (.Add (-Int.ofNat r) n) else .None
    | .Right r, .Sub 0 n, .Left l =>
      if r = l then .Merge (.Sub (Int.ofNat r) n) else .None
    | .Left l, .Sub 0 n, .Right r =>
      if r = l then .Merge (.Sub (-Int.ofNat r) n) else .None
    | _, _, _ => .None
  | _ => .None

/-- `opts.rs::pass_add_sub_offset`. -/
def pass_add_sub_offset (l : List Stmt) : List Stmt :=
  window_pass 3 (by omega) addSubOffsetAction l

/-- `opts.rs::optimize`: the fixed pass chain. -/
def optimize (instrs : List (Instr × Span)) : List Stmt :=
  pass_move_add_to
    (pass_add_sub_offset
      (pass_cancel_left_right_add_sub
        (pass_set_n
          (pass_find_set_null
            (pass_group (ast_to_ir instrs))))))

/-! ## Low-level statements and the interpreter (`lir/interpreter.rs`)

The `Lir` statement enum itself is declared in a module not present in the
sources (`lir/mod.rs`); its variants are reconstructed from the
interpreter's exhaustive `match` and §3 of the spec. -/

namespace Lir

/-- Low-level statement (`lir::Stmt`), as matched by
`Interpreter::execute`. -/
inductive Stmt : Type where
  | Add (n : Nat)
  | Sub (n : Nat)
  | AddOffset (offset : Int) (n : Nat)
  | SubOffset (offset : Int) (n : Nat)
  | MoveAddTo (offset : Int)
  | Right (n : Nat)
  | Left (n : Nat)
  | Out
  | In
  | SetN (n : Nat)
  | JmpIfZero (pos : Nat)
  | JmpIfNonZero (pos : Nat)
  | End
deriving DecidableEq, Repr

end Lir

/-- `MEM_SIZE` in `lir/interpreter.rs`. -/
def MEM_SIZE : Nat := 32000

/-- 8-bit wrapping addition (`Wrapping<u8>` `+=`). -/
def add8 (a b : Nat) : Nat := (a + b) % 256

/-- 8-bit wrapping subtraction (`Wrapping<u8>` `-=`). -/
def sub8 (a b : Nat) : Nat := (a + (256 - b % 256)) % 256

/-- The UTF-8 encoding of a code point below 256, as produced by
`write!(self.stdout, "{char}")` for `self.elem() as char`: one byte below
128, two bytes (`0xC2`/`0xC3` prefix) for 128..=255. -/
def utf8Bytes (c : Nat) : List Nat :=
  if c < 128 then [c] else [192 + c / 64, 128 + c % 64]

/-- Interpreter state (`struct Interpreter`): instruction pointer, tape
cursor, tape, plus the observable I/O: bytes written to the sink, number
of flushes, and the bytes remaining on the source.  The tape is a function
from index to cell value (cells are `Wrapping<u8>`, i.e. values in
`[0, 256)`). -/
structure InterpState where
  ip : Nat
  ptr : Nat
  mem : Nat → Nat
  output : List Nat
  flushes : Nat
  input : List Nat

/-- Point update of the tape. -/
def updMem (m : Nat → Nat) (i v : Nat) : Nat → Nat :=
  fun j => if j = i then v else m j

/-- Outcome of a fuelled run of `Interpreter::execute`:
`done` = the `End` statement was reached (normal termination);
`fail` = an unchecked access went out of bounds (undefined behaviour in
the Rust source), the instruction pointer left the statement list (the
`debug_assert!`/`get_unchecked` on the fetch), or `read_exact` could not
produce a byte (the `unwrap` panics);
`timeout` = fuel ran out with the machine still running. -/
inductive ExecResult : Type where
  | done (st : InterpState)
  | fail
  | timeout (st : InterpState)

/-- `Interpreter::execute`, with explicit fuel.  Fetch the statement at
`ip`, advance `ip`, dispatch.  `Add`/`Sub` and friends use 8-bit wrapping
arithmetic on the cell; `AddOffset`/`SubOffset`/`MoveAddTo` access the
cell at `ptr + offset` **without a bounds check** in the source
(`elem_mut_offset` uses `get_unchecked_mut((ptr + offset) as usize)`), so
an index outside `[0, MEM_SIZE)` is modelled as `fail`.  The profiling
callback has no semantic effect and is omitted. -/
def execute (stmts : List Lir.Stmt) : Nat → InterpState → ExecResult
  | 0, st => .timeout st
  | fuel + 1, st =>
    match stmts[st.ip]? with
    | none => .fail
    | some instr =>
      let st1 : InterpState := { st with ip := st.ip + 1 }
      match instr with
      | .Add n =>
        execute stmts fuel
          { st1 with mem := updMem st1.mem st1.ptr (add8 (st1.mem st1.ptr) n) }
      | .Sub n =>
        execute stmts fuel
          { st1 with mem := updMem st1.mem st1.ptr (sub8 (st1.mem st1.ptr) n) }
      | .AddOffset offset n =>
        let idx : Int := (st1.ptr : Int) + offset
        if 0 ≤ idx ∧ idx < (MEM_SIZE : Int) then
          execute stmts fuel
            { st1 with mem := updMem st1.mem idx.toNat (add8 (st1.mem idx.toNat) n) }
        else .fail
      | .SubOffset offset n =>
        let idx : Int := (st1.ptr : Int) + offset
        if 0 ≤ idx ∧ idx < (MEM_SIZE : Int) then
          execute stmts fuel
            { st1 with mem := updMem st1.mem idx.toNat (sub8 (st1.mem idx.toNat) n) }
        else .fail
      | .MoveAddTo offset =>
        let value := st1.mem st1.ptr
        let m1 := updMem st1.mem st1.ptr 0
        let idx : Int := (st1.ptr : Int) + offset
        if 0 ≤ idx ∧ idx < (MEM_SIZE : Int) then
          execute stmts fuel
            { st1 with mem := updMem m1 idx.toNat (add8 (m1 idx.toNat) value) }
        else .fail
      | .Right n =>
        let p := st1.ptr + n
        execute stmts fuel { st1 with ptr := if p ≥ MEM_SIZE then 0 else p }
      | .Left n =>
        execute stmts fuel
          { st1 with ptr :=
              if st1.ptr < n then MEM_SIZE - 1 - (n - st1.ptr) else st1.ptr - n }
      | .Out =>
        execute stmts fuel
          { st1 with output := st1.output ++ utf8Bytes (st1.mem st1.ptr),
                     flushes := st1.flushes + 1 }
      | .In =>
        match st1.input with
        | [] => .fail
        | b :: rest =>
          execute stmts fuel
            { st1 with mem := updMem st1.mem st1.ptr (b % 256), input := rest }
      | .SetN n =>
        execute stmts fuel { st1 with mem := updMem st1.mem st1.ptr (n % 256) }
      | .JmpIfZero pos =>
        execute stmts fuel (if st1.mem st1.ptr = 0 then { st1 with ip := pos } else st1)
      | .JmpIfNonZero pos =>
        execute stmts fuel (if st1.mem st1.ptr ≠ 0 then { st1 with ip := pos } else st1)
      | .End => .done st1

/-- Modelled from the spec: the flattening stage from the optimizer's tree
IR to the low-level statement list is in `lir/mod.rs`, which is not among
the available sources.  Per §3/§4.3 of the spec it lowers each `Loop` into
a `JmpIfZero`/`JmpIfNonZero` pair bracketing the body (absolute statement
indices: the `JmpIfZero` targets the statement after the loop, the
`JmpIfNonZero` targets the body's first statement) and maps every other
statement one-to-one; offset-zero `Add`/`Sub` become the plain
`Add(n)`/`Sub(n)` and nonzero offsets become `AddOffset`/`SubOffset`.
`pos` is the absolute index of the first emitted statement. -/
def flattenAt : Nat → List Stmt → List Lir.Stmt
  | _, [] => []
  | pos, .mk (.Loop body) _ :: rest =>
    let bodyL := flattenAt (pos + 1) body
    let after := pos + 1 + bodyL.length + 1
    (Lir.Stmt.JmpIfZero after :: bodyL ++ [Lir.Stmt.JmpIfNonZero (pos + 1)])
      ++ flattenAt after rest
  | pos, .mk (.Add offset n) _ :: rest =>
    (if offset = 0 then Lir.Stmt.Add n else Lir.Stmt.AddOffset offset n)
      :: flattenAt (pos + 1) rest
  | pos, .mk (.Sub offset n) _ :: rest =>
    (if offset = 0 then Lir.Stmt.Sub n else Lir.Stmt.SubOffset offset n)
      :: flattenAt (pos + 1) rest
  | pos, .mk (.MoveAddTo offset) _ :: rest =>
    Lir.Stmt.MoveAddTo offset :: flattenAt (pos + 1) rest
  | pos, .mk (.Right n) _ :: rest => Lir.Stmt.Right n :: flattenAt (pos + 1) rest
  | pos, .mk (.Left n) _ :: rest => Lir.Stmt.Left n :: flattenAt (pos + 1) rest
  | pos, .mk .Out _ :: rest => Lir.Stmt.Out :: flattenAt (pos + 1) rest
  | pos, .mk .In _ :: rest => Lir.Stmt.In :: flattenAt (pos + 1) rest
  | pos, .mk (.SetN n) _ :: rest => Lir.Stmt.SetN n :: flattenAt (pos + 1) rest

/-- Modelled from the spec: the complete lowering appends the single
terminating `End` (§3: "exactly one `End` terminates the statement
list"). -/
def lower (ir : List Stmt) : List Lir.Stmt :=
  flattenAt 0 ir ++ [Lir.Stmt.End]

/-- Fresh interpreter state over a given input stream (`run`:
zero-initialised tape, cursor 0, nothing written yet). -/
def initState (input : List Nat) : InterpState :=
  { ip := 0, ptr := 0, mem := fun _ => 0, output := [], flushes := 0,
    input := input }

/-- Observable output of a finished run. -/
def resultOutput : ExecResult → Option (List Nat)
  | .done st => some st.output
  | _ => none

/-- Final cursor of a finished run. -/
def resultPtr : ExecResult → Option Nat
  | .done st => some st.ptr
  | _ => none

/-- Whether a run aborted (out-of-bounds unchecked access or I/O panic). -/
def isFail : ExecResult → Bool
  | .fail => true
  | _ => false

/-! ## Auxiliary definitions used to state the claims -/

/-- A tape holding `c` in cell 0 and zero elsewhere. -/
def single0 (c : Nat) : Nat → Nat :=
  fun i => if i = 0 then c else 0

/-- Interpreter state with instruction pointer `ip`, cursor 0, cell 0
holding `c`, all other cells zero, no I/O yet. -/
def cellState (ip c : Nat) : InterpState :=
  { ip := ip, ptr := 0, mem := single0 c, output := [], flushes := 0,
    input := [] }

/-- The IR of a program that is one loop whose body is exactly one
`Sub(0, k)` (the shape recognised by `pass_find_set_null`). -/
def subLoopIr (k : Nat) : List Stmt :=
  [Stmt.mk (.Loop [Stmt.mk (.Sub 0 k) (Span.single 1)]) (Span.single 0)]

/-- The run from `st` reaches `End` with the current cell equal to zero. -/
def loopTerminatesWithZero (prog : List Lir.Stmt) (st : InterpState) : Prop :=
  ∃ fuel st', execute prog fuel st = .done st' ∧ st'.mem st'.ptr = 0

/-- `t`-fold iteration of the 8-bit wrapping decrement by `k` (the effect
of one trip through a `[Sub(0,k)]` loop body on the current cell). -/
def subIter (k : Nat) : Nat → Nat → Nat
  | 0, c => c
  | t + 1, c => subIter k t (sub8 c k)

/-- Bytes `"["*j ++ "]"*(j+1)`: the input consumed by `parse_loop` when
scanning the body of the outermost of `j+1` properly nested loops. -/
def openCloseBytes : Nat → List Nat
  | 0 => [93]
  | j + 1 => 91 :: (openCloseBytes j ++ [93])

/-- A state whose current cell holds 200, used to witness the two-byte
UTF-8 output path. -/
def outState : InterpState :=
  { ip := 0, ptr := 0, mem := single0 200, output := [], flushes := 0,
    input := [] }

/-! ## Claim C5 — `Left(1)` at cursor 0 -/

/-- C5, counterexample: executing `Left(1)` with the cursor at 0 sets the
cursor to 31998, not to the last valid index 31999 as the claim states
(the source computes `MEM_SIZE - 1 - (n - cursor)`, which for `n = 1`,
`cursor = 0` is `32000 - 1 - 1`). -/
theorem C5_left_from_zero_counterexample :
    resultPtr (execute [Lir.Stmt.Left 1, Lir.Stmt.End] 2 (initState [])) =
        some 31998 ∧
      resultPtr (execute [Lir.Stmt.Left 1, Lir.Stmt.End] 2 (initState [])) ≠
        some 31999 := by
  constructor
  · decide
  · decide

/-- C5, amended: executing `Left(n)` when `cursor < n` sets the cursor to
`MEM_SIZE - 1 - (n - cursor)`; in particular `Left(1)` at cursor 0 yields
31998 (= tape size minus 2), one short of the last valid index. -/
theorem C5_left_from_zero_amended (stmts : List Lir.Stmt) (fuel : Nat)
    (st : InterpState) (n : Nat) (h1 : stmts[st.ip]? = some (.Left n))
    (h2 : st.ptr < n) :
    execute stmts (fuel + 1) st =
      execute stmts fuel
        { st with ip := st.ip + 1, ptr := MEM_SIZE - 1 - (n - st.ptr) } := by
  simp [execute, h1, h2]

/-- Witness for C5's amended theorem at `Left(1)`, cursor 0. -/
theorem C5_left_from_zero_witness :
    execute [Lir.Stmt.Left 1, Lir.Stmt.End] (1 + 1) (initState []) =
      execute [Lir.Stmt.Left 1, Lir.Stmt.End] 1
        { initState [] with
          ip := (initState []).ip + 1,
          ptr := MEM_SIZE - 1 - (1 - (initState []).ptr) } :=
  C5_left_from_zero_amended [Lir.Stmt.Left 1, Lir.Stmt.End] 1 (initState []) 1
    rfl (by decide)

/-! ## Claim C2 — the `cursor + offset` in-bounds invariant fails -/

/-- C2, violation: the full parser-optimizer pipeline turns the source
`"<+>"` into the single statement `AddOffset(-1, 1)`; executed from the
initial state (cursor 0) the computed tape index is `0 + (-1) = -1`,
outside `[0, MEM_SIZE)`, so the unchecked access in `elem_mut_offset` is
out of bounds (modelled as `fail`). -/
theorem C2_offset_out_of_bounds :
    (parse (List.enum [60, 43, 62])).map (fun a => lower (optimize a)) =
        some [Lir.Stmt.AddOffset (-1) 1, Lir.Stmt.End] ∧
      isFail (execute [Lir.Stmt.AddOffset (-1) 1, Lir.Stmt.End] 2
        (initState [])) = true ∧
      ((initState []).ptr : Int) + (-1) < 0 := by
  refine ⟨?_, by decide, by decide⟩
  simp [parse, List.enum, parse_go, parse_loop, parse_loop_go, PRes.relax,
    optimize, ast_to_ir, pass_group, pass_group_fold, pass_group_step,
    canMerge, pass_find_set_null, isSetNullBody, pass_set_n, window_pass,
    window_go, process_head, setNAction, pass_cancel_left_right_add_sub,
    cancelAction, pass_add_sub_offset, addSubOffsetAction, pass_move_add_to,
    moveAddBodyOffset, Stmt.kind, Stmt.span, lower, flattenAt]

/-! ## Claim C1 — optimized and unoptimized runs are not output-equal -/

/-- C1, violation: for the tree the parser produces from `"<+>."` and the
empty input stream, interpreting the unoptimized flattened form terminates
with output `[0]`, while interpreting the optimized form aborts on an
out-of-bounds unchecked tape access (`AddOffset(-1,1)` at cursor 0), so
the two runs are not byte-for-byte output-identical. -/
theorem C1_roundtrip_broken :
    (parse (List.enum [60, 43, 62, 46])).map
        (fun a => resultOutput (execute (lower (ast_to_ir a)) 10 (initState []))) =
      some (some [0]) ∧
    (parse (List.enum [60, 43, 62, 46])).map
        (fun a => isFail (execute (lower (optimize a)) 10 (initState []))) =
      some true := by
  have hp : parse (List.enum [60, 43, 62, 46]) =
      some [(Instr.left, Span.single 0), (Instr.add, Span.single 1),
            (Instr.right, Span.single 2), (Instr.out, Span.single 3)] := by
    simp [parse, List.enum, parse_go]
  have hopt : lower (optimize [(Instr.left, Span.single 0), (Instr.add, Span.single 1),
      (Instr.right, Span.single 2), (Instr.out, Span.single 3)]) =
      [Lir.Stmt.AddOffset (-1) 1, Lir.Stmt.Out, Lir.Stmt.End] := by
    simp [optimize, ast_to_ir, pass_group, pass_group_fold, pass_group_step,
      canMerge, pass_find_set_null, isSetNullBody, pass_set_n, window_pass,
      window_go, process_head, setNAction, pass_cancel_left_right_add_sub,
      cancelAction, pass_add_sub_offset, addSubOffsetAction, pass_move_add_to,
      moveAddBodyOffset, Stmt.kind, Stmt.span, lower, flattenAt]
  have hlow : lower (ast_to_ir [(Instr.left, Span.single 0), (Instr.add, Span.single 1),
      (Instr.right, Span.single 2), (Instr.out, Span.single 3)]) =
      [Lir.Stmt.Left 1, Lir.Stmt.Add 1, Lir.Stmt.Right 1, Lir.Stmt.Out, Lir.Stmt.End] := by
    simp [ast_to_ir, lower, flattenAt]
  rw [hp]
  constructor
  · simp only [Option.map_some']
    rw [hlow]
    decide
  · simp only [Option.map_some']
    rw [hopt]
    decide

/-! ## Claim C10 — `Out` writes the UTF-8 encoding and flushes -/

/-- C10: executing `Out` appends the UTF-8 encoding of the current cell's
value to the sink and flushes once; the encoding is the single raw byte
for values up to 127 and two bytes (not the raw byte) for 128..=255. -/
theorem C10_out_utf8 (stmts : List Lir.Stmt) (fuel : Nat) (st : InterpState)
    (h : stmts[st.ip]? = some .Out) :
    execute stmts (fuel + 1) st =
      execute stmts fuel
        { st with
          ip := st.ip + 1,
          output := st.output ++ utf8Bytes (st.mem st.ptr),
          flushes := st.flushes + 1 } ∧
    (st.mem st.ptr ≤ 127 → utf8Bytes (st.mem st.ptr) = [st.mem st.ptr]) ∧
    (128 ≤ st.mem st.ptr → st.mem st.ptr < 256 →
      utf8Bytes (st.mem st.ptr) =
          [192 + st.mem st.ptr / 64, 128 + st.mem st.ptr % 64] ∧
        utf8Bytes (st.mem st.ptr) ≠ [st.mem st.ptr]) := by
  refine ⟨by simp [execute, h], ?_, ?_⟩
  · intro hle
    simp [utf8Bytes]
    omega
  · intro h1 h2
    constructor
    · simp [utf8Bytes]
      omega
    · simp [utf8Bytes]
      omega

/-- Witness for C10 at a cell holding 200 (two-byte path). -/
theorem C10_out_utf8_witness :
    (execute [Lir.Stmt.Out, Lir.Stmt.End] (1 + 1) outState =
      execute [Lir.Stmt.Out, Lir.Stmt.End] 1
        { outState with
          ip := outState.ip + 1,
          output := outState.output ++ utf8Bytes (outState.mem outState.ptr),
          flushes := outState.flushes + 1 }) ∧
    (outState.mem outState.ptr ≤ 127 →
      utf8Bytes (outState.mem outState.ptr) = [outState.mem outState.ptr]) ∧
    (128 ≤ outState.mem outState.ptr → outState.mem outState.ptr < 256 →
      utf8Bytes (outState.mem outState.ptr) =
          [192 + outState.mem outState.ptr / 64,
           128 + outState.mem outState.ptr % 64] ∧
        utf8Bytes (outState.mem outState.ptr) ≠ [outState.mem outState.ptr]) :=
  C10_out_utf8 [Lir.Stmt.Out, Lir.Stmt.End] 1 outState rfl

/-! ## Claim C4 — nesting-depth bound of the parser -/

/-- Splitting a `(index, byte)` list along a decomposition of its byte
projection that ends in one byte. -/
theorem map_snd_split (l : List (Nat × Nat)) (X : List Nat) (b : Nat)
    (h : l.map Prod.snd = X ++ [b]) :
    ∃ l1 p, l = l1 ++ [p] ∧ l1.map Prod.snd = X ∧ p.2 = b := by
  induction l generalizing X with
  | nil => exact absurd h (by simp)
  | cons q l2 ih =>
    cases X with
    | nil =>
      simp only [List.map_cons, List.nil_append, List.cons.injEq] at h
      obtain ⟨hq, hl2⟩ := h
      have h2 : l2 = [] := List.map_eq_nil_iff.mp hl2
      exact ⟨[], q, by simp [h2], by simp, hq⟩
    | cons x X2 =>
      simp only [List.map_cons, List.cons_append, List.cons.injEq] at h
      obtain ⟨hq, hrest⟩ := h
      obtain ⟨l1, p, rfl, hm, hb⟩ := ih X2 hrest
      exact ⟨q :: l1, p, by simp, by simp [hm, hq], hb⟩

/-- Projection of a parse result to plain data (dropping the length-bound
proof on the remaining input). -/
theorem parse_res_proj {α : Type} {n : Nat} (o : Option (PRes α n))
    (instrs : List (Instr × Span)) (e : α) (tail : List (Nat × Nat))
    (h : o.map (fun r => (r.1, r.2.1, r.2.2.val)) = some (instrs, e, tail)) :
    ∃ hlt : tail.length < n, o = some (instrs, e, ⟨tail, hlt⟩) := by
  match o with
  | none => simp at h
  | some (i1, e1, ⟨v, hv⟩) =>
    simp only [Option.map_some', Option.some.injEq, Prod.mk.injEq] at h
    obtain ⟨h1, h2, h3⟩ := h
    subst h1; subst h2; subst h3
    exact ⟨hv, rfl⟩

/-- `openCloseBytes j` is `"["*j ++ "]"*(j+1)`. -/
theorem openCloseBytes_eq (j : Nat) :
    openCloseBytes j = List.replicate j 91 ++ List.replicate (j + 1) 93 := by
  induction j with
  | zero => simp [openCloseBytes]
  | succ m ihm =>
    rw [openCloseBytes, ihm]
    rw [show List.replicate (m + 1 + 1) 93 =
        List.replicate (m + 1) 93 ++ [93] from List.replicate_succ' (m + 1) 93]
    simp [List.replicate_succ]

/-- `parse_loop` succeeds on a properly nested body `"["*j ++ "]"*(j+1)`
whenever the depths reached stay within the bound (`depth + j <= 1000`),
consuming exactly the nested part and leaving the rest of the input. -/
theorem parse_loop_go_openClose (j : Nat) :
    ∀ (l rest : List (Nat × Nat)) (depth : Nat) (acc : List (Instr × Span)),
      l.map Prod.snd = openCloseBytes j → depth + j ≤ 1000 →
      ∃ instrs e,
        (parse_loop_go (l ++ rest) depth acc).map
            (fun r => (r.1, r.2.1, r.2.2.val)) = some (instrs, e, rest) := by
  induction j with
  | zero =>
    intro l rest depth acc h _
    match l, h with
    | [(q1, q2)], h =>
      simp only [List.map_cons, List.map_nil, openCloseBytes,
        List.cons.injEq, and_true] at h
      subst h
      exact ⟨acc, q1, by simp [parse_loop_go]⟩
  | succ j ih =>
    intro l rest depth acc h hd
    cases l with
    | nil => simp [openCloseBytes] at h
    | cons q l2 =>
      obtain ⟨q1, q2⟩ := q
      simp only [List.map_cons, openCloseBytes, List.cons.injEq] at h
      obtain ⟨hq, hl2⟩ := h
      subst hq
      obtain ⟨lA, p, rfl, hlA, hp93⟩ := map_snd_split l2 _ _ hl2
      obtain ⟨p1, p2⟩ := p
      simp only at hp93
      subst hp93
      obtain ⟨instrs0, e0, hIH⟩ :=
        ih lA ((p1, 93) :: rest) (depth + 1) [] hlA (by omega)
      obtain ⟨hlt, hIH2⟩ := parse_res_proj _ _ _ _ hIH
      have hpl : parse_loop (lA ++ ((p1, 93) :: rest)) (depth + 1) q1 =
          some (instrs0, Span.start_end_incl q1 e0, ⟨(p1, 93) :: rest, hlt⟩) := by
        rw [parse_loop.eq_def, if_neg (by omega : ¬ depth + 1 > 1000), hIH2]
      rw [show ((q1, 91) :: (lA ++ [(p1, 93)])) ++ rest =
          (q1, 91) :: (lA ++ ((p1, 93) :: rest)) by simp]
      rw [parse_loop_go.eq_def]
      simp only [reduceIte]
      rw [hpl]
      simp only []
      rw [show parse_loop_go ((p1, 93) :: rest) depth
            (acc ++ [(Instr.loop instrs0, Span.start_end_incl q1 e0)]) =
          some (acc ++ [(Instr.loop instrs0, Span.start_end_incl q1 e0)], p1,
            ⟨rest, Nat.lt_succ_self _⟩) from by simp [parse_loop_go]]
      exact ⟨acc ++ [(Instr.loop instrs0, Span.start_end_incl q1 e0)], p1,
        by simp [PRes.relax]⟩

/-- `parse_loop` (hence the whole parse) fails on input that is nothing
but `[`s: either the depth guard fires or the stream ends unterminated. -/
theorem parse_loop_go_opens (k : Nat) :
    ∀ (l : List (Nat × Nat)) (depth : Nat) (acc : List (Instr × Span)),
      l.map Prod.snd = List.replicate k 91 →
      parse_loop_go l depth acc = none := by
  induction k with
  | zero =>
    intro l depth acc h
    have h2 : l = [] := by
      cases l with
      | nil => rfl
      | cons q l2 => simp [List.replicate] at h
    subst h2
    simp [parse_loop_go]
  | succ k ih =>
    intro l depth acc h
    cases l with
    | nil => simp [List.replicate] at h
    | cons q l2 =>
      obtain ⟨q1, q2⟩ := q
      simp only [List.map_cons, List.replicate, List.cons.injEq] at h
      obtain ⟨hq, hl2⟩ := h
      subst hq
      have hnone : parse_loop l2 (depth + 1) q1 = none := by
        rw [parse_loop.eq_def, ih l2 (depth + 1) [] hl2]
        split
        · rfl
        · rfl
      rw [parse_loop_go.eq_def]
      simp [hnone]

/-- The whole `parse` fails on any stream whose bytes are `"["*1001`. -/
theorem parse_opens_1001 (l : List (Nat × Nat))
    (h : l.map Prod.snd = List.replicate 1001 91) : parse l = none := by
  rw [show List.replicate 1001 (91 : Nat) = 91 :: List.replicate 1000 91
    from rfl] at h
  cases l with
  | nil =>
    simp only [List.map_nil] at h
    exact List.noConfusion h
  | cons q l2 =>
    obtain ⟨q1, q2⟩ := q
    simp only [List.map_cons, List.cons.injEq] at h
    obtain ⟨hq, hl2⟩ := h
    subst hq
    have hnone : parse_loop l2 0 q1 = none := by
      rw [parse_loop.eq_def, parse_loop_go_opens 1000 l2 0 [] hl2]
      split
      · rfl
      · rfl
    rw [parse, parse_go.eq_def]
    simp [hnone]

/-- The whole `parse` succeeds on any stream whose bytes are
`"["*d ++ "]"*d` for `d ≤ 1001`. -/
theorem parse_nested (d : Nat) (hd : d ≤ 1000) (l : List (Nat × Nat))
    (h : l.map Prod.snd = List.replicate d 91 ++ List.replicate d 93) :
    ∃ out, parse l = some out := by
  match d with
  | 0 =>
    have h2 : l = [] := by
      cases l with
      | nil => rfl
      | cons q l2 => simp [List.replicate] at h
    subst h2
    exact ⟨[], by simp [parse, parse_go]⟩
  | e + 1 =>
    have hbytes : l.map Prod.snd = 91 :: openCloseBytes e := by
      rw [h, openCloseBytes_eq]
      simp [List.replicate_succ]
    cases l with
    | nil => simp at hbytes
    | cons q l2 =>
      obtain ⟨q1, q2⟩ := q
      simp only [List.map_cons, List.cons.injEq] at hbytes
      obtain ⟨hq, hl2⟩ := hbytes
      subst hq
      obtain ⟨instrs0, e0, hS⟩ :=
        parse_loop_go_openClose e l2 [] 0 [] hl2 (by omega)
      rw [List.append_nil] at hS
      obtain ⟨hlt, hS2⟩ := parse_res_proj _ _ _ _ hS
      have hpl : parse_loop l2 0 q1 =
          some (instrs0, Span.start_end_incl q1 e0, ⟨[], hlt⟩) := by
        rw [parse_loop.eq_def, if_neg (by omega : ¬ (0 : Nat) > 1000), hS2]
      refine ⟨[(Instr.loop instrs0, Span.start_end_incl q1 e0)], ?_⟩
      rw [parse, parse_go.eq_def]
      simp [hpl, parse_go]

/-- C4: parsing 1001 nested `[` (no closers) fails, while for every
`d ≤ 1000`, `d` nested openings each eventually closed parse
successfully. -/
theorem C4_depth_bound :
    parse (List.enum (List.replicate 1001 91)) = none ∧
    ∀ d : Nat, d ≤ 1000 →
      ∃ out, parse (List.enum (List.replicate d 91 ++ List.replicate d 93)) =
        some out := by
  constructor
  · exact parse_opens_1001 _ (List.enum_map_snd _)
  · intro d hd
    exact parse_nested d hd _ (List.enum_map_snd _)

/-- Witness for C4 at depth 3. -/
theorem C4_depth_bound_witness :
    ∃ out, parse (List.enum (List.replicate 3 91 ++ List.replicate 3 93)) =
      some out :=
  C4_depth_bound.2 3 (by omega)

/-! ## Claim C6 — grouping caps `Add`/`Sub` counts at 255 -/

/-- Lowering `n` repeated `+` yields `n` copies of `Add(0,1)`. -/
theorem ast_to_ir_replicate_add (n : Nat) (sp : Span) :
    ast_to_ir (List.replicate n (Instr.add, sp)) =
      List.replicate n (Stmt.mk (.Add 0 1) sp) := by
  induction n with
  | zero => simp [ast_to_ir]
  | succ m ih => simp [List.replicate_succ, ast_to_ir, ih]

/-- The fold of `pass_group` distributes over append of the input. -/
theorem pass_group_fold_append (l1 l2 : List Stmt) (acc : List Stmt) :
    pass_group_fold acc (l1 ++ l2) =
      pass_group_fold (pass_group_fold acc l1) l2 := by
  induction l1 generalizing acc with
  | nil => simp [pass_group_fold]
  | cons s rest ih => simp [pass_group_fold, ih]

/-- Folding `m` unit `Add(0,·)`s onto an accumulator headed by
`Add(offset,a)` merges them all as long as the running count stays at or
below 255. -/
theorem pass_group_fold_add_run (m : Nat) :
    ∀ (a : Nat) (offset : Int) (sp sp2 : Span) (tail : List Stmt),
      a + m ≤ 255 →
      ∃ sp3, pass_group_fold (Stmt.mk (.Add offset a) sp :: tail)
          (List.replicate m (Stmt.mk (.Add offset 1) sp2)) =
        Stmt.mk (.Add offset (a + m)) sp3 :: tail := by
  induction m with
  | zero =>
    intro a offset sp sp2 tail _
    exact ⟨sp, by simp [pass_group_fold]⟩
  | succ m ih =>
    intro a offset sp sp2 tail hcap
    rw [List.replicate_succ, pass_group_fold]
    rw [show pass_group_step (Stmt.mk (.Add offset a) sp :: tail)
          (Stmt.mk (.Add offset 1) sp2) =
        Stmt.mk (.Add offset ((a + 1) % 256)) (sp.merge sp2) :: tail from by
      simp [pass_group_step, canMerge, show a < 255 by omega]]
    rw [show (a + 1) % 256 = a + 1 from Nat.mod_eq_of_lt (by omega)]
    obtain ⟨sp3, hs⟩ := ih (a + 1) offset (sp.merge sp2) sp2 tail (by omega)
    rw [hs]
    exact ⟨sp3, by rw [show a + 1 + m = a + (m + 1) by omega]⟩

/-- C6, counterexample: lowering and grouping 256 consecutive `+` yields
`Add(0,255)` followed by `Add(0,1)`, not a single `Add(0,256)` — the
`u8` count of `Add` is capped by the same `< 255` guard as pointer
moves. -/
theorem C6_group_cap_counterexample :
    (pass_group (ast_to_ir (List.replicate 256 (Instr.add, Span.single 0)))).map
        Stmt.kind = [StmtKind.Add 0 255, StmtKind.Add 0 1] ∧
      (pass_group (ast_to_ir (List.replicate 256 (Instr.add, Span.single 0)))).map
        Stmt.kind ≠ [StmtKind.Add 0 256] := by
  have h : (pass_group (ast_to_ir (List.replicate 256 (Instr.add, Span.single 0)))).map
      Stmt.kind = [StmtKind.Add 0 255, StmtKind.Add 0 1] := by
    rw [ast_to_ir_replicate_add, pass_group]
    rw [show List.replicate 256 (Stmt.mk (.Add 0 1) (Span.single 0)) =
        Stmt.mk (.Add 0 1) (Span.single 0) ::
          (List.replicate 254 (Stmt.mk (.Add 0 1) (Span.single 0)) ++
            [Stmt.mk (.Add 0 1) (Span.single 0)]) from by
      rw [← List.replicate_succ' 254 (Stmt.mk (.Add 0 1) (Span.single 0))]
      rfl]
    rw [pass_group_fold]
    rw [show pass_group_step [] (Stmt.mk (.Add 0 1) (Span.single 0)) =
        [Stmt.mk (.Add 0 1) (Span.single 0)] from by simp [pass_group_step]]
    rw [pass_group_fold_append]
    obtain ⟨sp3, hrun⟩ := pass_group_fold_add_run 254 1 0 (Span.single 0)
      (Span.single 0) [] (by omega)
    rw [hrun]
    rw [show pass_group_fold [Stmt.mk (.Add 0 (1 + 254)) sp3]
          [Stmt.mk (.Add 0 1) (Span.single 0)] =
        [Stmt.mk (.Add 0 1) (Span.single 0), Stmt.mk (.Add 0 (1 + 254)) sp3]
        from by simp [pass_group_fold, pass_group_step, canMerge]]
    simp [Stmt.kind]
  exact ⟨h, by rw [h]; simp⟩

/-- C6, amended: `Add`/`Sub` counts are `u8` values and grouping stops
extending a run once the accumulated count has reached 255 — exactly as
for `Right`/`Left` — so 256 consecutive `+` group to `Add(0,255)` followed
by `Add(0,1)`. -/
theorem C6_group_cap_amended (sp : Span) :
    (pass_group (ast_to_ir (List.replicate 256 (Instr.add, sp)))).map
        Stmt.kind = [StmtKind.Add 0 255, StmtKind.Add 0 1] ∧
      (∀ (offset : Int) (b : Nat) (s1 s2 : Span),
        canMerge (Stmt.mk (.Add offset 255) s1) (Stmt.mk (.Add offset b) s2) =
          none) ∧
      (∀ (b : Nat) (s1 s2 : Span),
        canMerge (Stmt.mk (.Right 255) s1) (Stmt.mk (.Right b) s2) = none) := by
  refine ⟨?_, ?_, ?_⟩
  · rw [ast_to_ir_replicate_add, pass_group]
    rw [show List.replicate 256 (Stmt.mk (.Add 0 1) sp) =
        Stmt.mk (.Add 0 1) sp ::
          (List.replicate 254 (Stmt.mk (.Add 0 1) sp) ++
            [Stmt.mk (.Add 0 1) sp]) from by
      rw [← List.replicate_succ' 254 (Stmt.mk (.Add 0 1) sp)]
      rfl]
    rw [pass_group_fold]
    rw [show pass_group_step [] (Stmt.mk (.Add 0 1) sp) =
        [Stmt.mk (.Add 0 1) sp] from by simp [pass_group_step]]
    rw [pass_group_fold_append]
    obtain ⟨sp3, hrun⟩ := pass_group_fold_add_run 254 1 0 sp sp [] (by omega)
    rw [hrun]
    rw [show pass_group_fold [Stmt.mk (.Add 0 (1 + 254)) sp3]
          [Stmt.mk (.Add 0 1) sp] =
        [Stmt.mk (.Add 0 1) sp, Stmt.mk (.Add 0 (1 + 254)) sp3]
        from by simp [pass_group_fold, pass_group_step, canMerge]]
    simp [Stmt.kind]
  · intro offset b s1 s2
    simp [canMerge]
  · intro b s1 s2
    simp [canMerge]

/-- Witness for C6's amended theorem at span `[0,1)`. -/
theorem C6_group_cap_witness :
    (pass_group (ast_to_ir (List.replicate 256 (Instr.add, Span.single 0)))).map
        Stmt.kind = [StmtKind.Add 0 255, StmtKind.Add 0 1] ∧
      (∀ (offset : Int) (b : Nat) (s1 s2 : Span),
        canMerge (Stmt.mk (.Add offset 255) s1) (Stmt.mk (.Add offset b) s2) =
          none) ∧
      (∀ (b : Nat) (s1 s2 : Span),
        canMerge (Stmt.mk (.Right 255) s1) (Stmt.mk (.Right b) s2) = none) :=
  C6_group_cap_amended (Span.single 0)

/-! ## Claim C8 — the move-add pass -/

/-- The move-add body pattern matches exactly the two-statement
`{Sub(0,1), Add(offset,1)}` bodies, in either order. -/
theorem moveAddBodyOffset_some_iff (b : List Stmt) (offset : Int) :
    moveAddBodyOffset b = some offset ↔
      ∃ s1 s2, b = [Stmt.mk (.Sub 0 1) s1, Stmt.mk (.Add offset 1) s2] ∨
        b = [Stmt.mk (.Add offset 1) s1, Stmt.mk (.Sub 0 1) s2] := by
  constructor
  · intro h
    rw [moveAddBodyOffset.eq_def] at h
    split at h
    · simp only [Option.some.injEq] at h
      subst h
      exact ⟨_, _, Or.inl rfl⟩
    · simp only [Option.some.injEq] at h
      subst h
      exact ⟨_, _, Or.inr rfl⟩
    · exact absurd h (by simp)
  · rintro ⟨s1, s2, rfl | rfl⟩ <;> simp [moveAddBodyOffset]

/-- C8: `pass_move_add_to` rewrites exactly the loops whose body is
`{Sub(0,1), Add(offset,1)}` in either order into `MoveAddTo(offset)`,
recurses into every other loop, leaves non-loops unchanged, and the
source `"[->+<]"` optimizes to a single `MoveAddTo(1)`. -/
theorem C8_move_add_to (span s1 s2 : Span) (offset : Int)
    (body rest : List Stmt) (k : StmtKind)
    (hbody : moveAddBodyOffset body = none) (hk : ∀ b, k ≠ StmtKind.Loop b) :
    pass_move_add_to
        (Stmt.mk (.Loop [Stmt.mk (.Sub 0 1) s1, Stmt.mk (.Add offset 1) s2])
          span :: rest) =
      Stmt.mk (.MoveAddTo offset) span :: pass_move_add_to rest ∧
    pass_move_add_to
        (Stmt.mk (.Loop [Stmt.mk (.Add offset 1) s1, Stmt.mk (.Sub 0 1) s2])
          span :: rest) =
      Stmt.mk (.MoveAddTo offset) span :: pass_move_add_to rest ∧
    pass_move_add_to (Stmt.mk (.Loop body) span :: rest) =
      Stmt.mk (.Loop (pass_move_add_to body)) span :: pass_move_add_to rest ∧
    pass_move_add_to (Stmt.mk k span :: rest) =
      Stmt.mk k span :: pass_move_add_to rest ∧
    (moveAddBodyOffset body = some offset ↔
      ∃ t1 t2, body = [Stmt.mk (.Sub 0 1) t1, Stmt.mk (.Add offset 1) t2] ∨
        body = [Stmt.mk (.Add offset 1) t1, Stmt.mk (.Sub 0 1) t2]) ∧
    (parse (List.enum [91, 45, 62, 43, 60, 93])).map
        (fun a => (optimize a).map Stmt.kind) =
      some [StmtKind.MoveAddTo 1] := by
  refine ⟨?_, ?_, ?_, ?_, moveAddBodyOffset_some_iff body offset, ?_⟩
  · simp [pass_move_add_to, moveAddBodyOffset]
  · simp [pass_move_add_to, moveAddBodyOffset]
  · simp [pass_move_add_to, hbody]
  · cases k with
    | Loop b => exact absurd rfl (hk b)
    | _ => simp [pass_move_add_to]
  · simp [parse, List.enum, parse_go, parse_loop, parse_loop_go, PRes.relax,
      optimize, ast_to_ir, pass_group, pass_group_fold, pass_group_step,
      canMerge, pass_find_set_null, isSetNullBody, pass_set_n, window_pass,
      window_go, process_head, setNAction, pass_cancel_left_right_add_sub,
      cancelAction, pass_add_sub_offset, addSubOffsetAction, pass_move_add_to,
      moveAddBodyOffset, Stmt.kind, Stmt.span]

/-- Witness for C8 with an empty (non-matching) loop body and a non-loop
statement kind. -/
theorem C8_move_add_to_witness :
    pass_move_add_to
        (Stmt.mk (.Loop [Stmt.mk (.Sub 0 1) (Span.single 1),
          Stmt.mk (.Add 1 1) (Span.single 2)]) (Span.single 0) :: []) =
      Stmt.mk (.MoveAddTo 1) (Span.single 0) :: pass_move_add_to [] ∧
    pass_move_add_to
        (Stmt.mk (.Loop [Stmt.mk (.Add 1 1) (Span.single 1),
          Stmt.mk (.Sub 0 1) (Span.single 2)]) (Span.single 0) :: []) =
      Stmt.mk (.MoveAddTo 1) (Span.single 0) :: pass_move_add_to [] ∧
    pass_move_add_to (Stmt.mk (.Loop []) (Span.single 0) :: []) =
      Stmt.mk (.Loop (pass_move_add_to [])) (Span.single 0) ::
        pass_move_add_to [] ∧
    pass_move_add_to (Stmt.mk .Out (Span.single 0) :: []) =
      Stmt.mk .Out (Span.single 0) :: pass_move_add_to [] ∧
    (moveAddBodyOffset [] = some 1 ↔
      ∃ t1 t2, ([] : List Stmt) = [Stmt.mk (.Sub 0 1) t1, Stmt.mk (.Add 1 1) t2] ∨
        ([] : List Stmt) = [Stmt.mk (.Add 1 1) t1, Stmt.mk (.Sub 0 1) t2]) ∧
    (parse (List.enum [91, 45, 62, 43, 60, 93])).map
        (fun a => (optimize a).map Stmt.kind) =
      some [StmtKind.MoveAddTo 1] :=
  C8_move_add_to (Span.single 0) (Span.single 1) (Span.single 2) 1 [] []
    StmtKind.Out (by simp [moveAddBodyOffset]) (by intro b h; exact StmtKind.noConfusion h)

/-! ## Claim C9 — cursor discipline of the window engine -/

/-- C9: with a full window in view (`¬ rest.length + 1 < N`), a `Merge`
decision continues the scan with the merged statement as the leading
element of the next window (cursor not advanced), a `RemoveAll` decision
continues the scan at the statement that slid into the window (cursor not
advanced; the new leading statement is loop-recursed exactly as any other
leading statement, via `window_pass`), and a `None` decision emits the
leading statement and advances by one. -/
theorem C9_window_cursor (N : Nat) (hN : 2 ≤ N)
    (f : List Stmt → WindowPassAction) (cur : Stmt) (rest : List Stmt)
    (hlen : ¬ (rest.length + 1 < N)) :
    (∀ kind, f (cur :: rest.take (N - 1)) = .Merge kind →
      window_go N hN f cur rest =
        window_go N hN f
          (Stmt.mk kind
            (cur.span.merge ((rest.take (N - 1)).getLastD cur).span))
          (rest.drop (N - 1))) ∧
    (f (cur :: rest.take (N - 1)) = .RemoveAll →
      window_go N hN f cur rest = window_pass N hN f (rest.drop (N - 1))) ∧
    (∀ next rest1, rest = next :: rest1 →
      f (cur :: rest.take (N - 1)) = .None →
      window_go N hN f cur rest =
        cur :: window_go N hN f (process_head N hN f next) rest1) := by
  refine ⟨?_, ?_, ?_⟩
  · intro kind hf
    conv_lhs => rw [window_go.eq_def]
    simp only [dif_neg hlen, hf]
  · intro hf
    conv_lhs => rw [window_go.eq_def]
    simp only [dif_neg hlen, hf]
  · intro next rest1 hrest hf
    subst hrest
    conv_lhs => rw [window_go.eq_def]
    simp only [dif_neg hlen, hf]

/-- Witness for C9 with `N = 2` and an always-`RemoveAll` action. -/
theorem C9_window_cursor_witness :
    window_go 2 (Nat.le_refl 2) (fun _ => WindowPassAction.RemoveAll)
        (Stmt.mk .Out (Span.single 0)) [Stmt.mk .In (Span.single 1)] =
      window_pass 2 (Nat.le_refl 2) (fun _ => WindowPassAction.RemoveAll)
        ([Stmt.mk .In (Span.single 1)].drop (2 - 1)) :=
  (C9_window_cursor 2 (Nat.le_refl 2) (fun _ => WindowPassAction.RemoveAll)
      (Stmt.mk .Out (Span.single 0)) [Stmt.mk .In (Span.single 1)]
      (by simp)).2.1 rfl

/-! ## Claim C3 — the find-set-null zeroing idiom -/

/-- The lowered form of `[Sub(0,k)]`-in-a-loop. -/
def subLoopProg (k : Nat) : List Lir.Stmt :=
  [Lir.Stmt.JmpIfZero 3, Lir.Stmt.Sub k, Lir.Stmt.JmpIfNonZero 1,
   Lir.Stmt.End]

theorem lower_subLoopIr (k : Nat) : lower (subLoopIr k) = subLoopProg k := by
  simp [lower, subLoopIr, flattenAt, subLoopProg]

theorem sub8_lt (a b : Nat) : sub8 a b < 256 :=
  Nat.mod_lt _ (by omega)

theorem updMem_single0 (c x : Nat) : updMem (single0 c) 0 x = single0 x := by
  funext j
  by_cases h : j = 0 <;> simp [updMem, single0, h]

/-- One step from the loop head: nonzero cell enters the body. -/
theorem subLoop_step_jz (k fuel c : Nat) (hc : c ≠ 0) :
    execute (subLoopProg k) (fuel + 1) (cellState 0 c) =
      execute (subLoopProg k) fuel (cellState 1 c) := by
  simp [execute, subLoopProg, cellState, single0, hc]

/-- From the loop head with a zero cell: jump past the loop and stop. -/
theorem subLoop_step_jz_zero (k fuel : Nat) :
    execute (subLoopProg k) (fuel + 2) (cellState 0 0) =
      .done (cellState 4 0) := by
  simp [execute, subLoopProg, cellState, single0]

/-- The body's `Sub(k)` decrements the cell with 8-bit wraparound. -/
theorem subLoop_step_sub (k fuel c : Nat) :
    execute (subLoopProg k) (fuel + 1) (cellState 1 c) =
      execute (subLoopProg k) fuel (cellState 2 (sub8 c k)) := by
  simp [execute, subLoopProg, cellState, single0, updMem_single0]

/-- The back-jump: nonzero cell repeats the body. -/
theorem subLoop_step_jnz (k fuel c : Nat) (hc : c ≠ 0) :
    execute (subLoopProg k) (fuel + 1) (cellState 2 c) =
      execute (subLoopProg k) fuel (cellState 1 c) := by
  simp [execute, subLoopProg, cellState, single0, hc]

/-- The back-jump with a zero cell: fall through to `End`. -/
theorem subLoop_step_exit (k fuel : Nat) :
    execute (subLoopProg k) (fuel + 2) (cellState 2 0) =
      .done (cellState 4 0) := by
  simp [execute, subLoopProg, cellState, single0]

/-- C3, counterexample: the loop `[Sub(0,2)]` started with the current
cell holding 1 never terminates — subtracting 2 keeps the cell odd, hence
never zero, under 8-bit wraparound — so the claim's "for every nonzero
decrement count k and every initial value the loop terminates with the
cell equal to zero" is false at `k = 2`, initial value 1. -/
theorem C3_set_null_counterexample :
    ¬ loopTerminatesWithZero (lower (subLoopIr 2)) (cellState 0 1) ∧
      (2 : Nat) ≠ 0 := by
  refine ⟨?_, by omega⟩
  have key : ∀ fuel c ip, c % 2 = 1 → c < 256 →
      (ip = 0 ∨ ip = 1 ∨ ip = 2) →
      ∃ st2, execute (subLoopProg 2) fuel (cellState ip c) = .timeout st2 := by
    intro fuel
    induction fuel with
    | zero => intro c ip _ _ _; exact ⟨cellState ip c, rfl⟩
    | succ fuel ih =>
      intro c ip hodd hlt hip
      rcases hip with rfl | rfl | rfl
      · rw [subLoop_step_jz 2 fuel c (by omega)]
        exact ih c 1 hodd hlt (by omega)
      · rw [subLoop_step_sub 2 fuel c]
        refine ih (sub8 c 2) 2 ?_ (sub8_lt c 2) (by omega)
        unfold sub8
        omega
      · rw [subLoop_step_jnz 2 fuel c (by omega)]
        exact ih c 1 hodd hlt (by omega)
  rintro ⟨fuel, st2, hdone, -⟩
  rw [lower_subLoopIr] at hdone
  obtain ⟨st3, ht⟩ := key fuel 1 0 (by omega) (by omega) (Or.inl rfl)
  rw [ht] at hdone
  exact ExecResult.noConfusion hdone

/-- Iterating the wrapping decrement stays below 256. -/
theorem subIter_lt (k t : Nat) : ∀ c, c < 256 → subIter k t c < 256 := by
  induction t with
  | zero => intro c hc; exact hc
  | succ t ih => intro c _; exact ih (sub8 c k) (sub8_lt c k)

/-- The iterated wrapping decrement, read in `ZMod 256`. -/
theorem subIter_cast (k t : Nat) : ∀ c : Nat,
    ((subIter k t c : Nat) : ZMod 256) = (c : ZMod 256) - t * k := by
  induction t with
  | zero => intro c; simp [subIter]
  | succ t ih =>
    intro c
    rw [subIter, ih (sub8 c k)]
    have hs : ((sub8 c k : Nat) : ZMod 256) = (c : ZMod 256) - k := by
      unfold sub8
      rw [ZMod.natCast_mod, Nat.cast_add,
        Nat.cast_sub (Nat.le_of_lt (Nat.mod_lt k (by omega)))]
      rw [show ((256 : Nat) : ZMod 256) = 0 from ZMod.natCast_self 256,
        ZMod.natCast_mod]
      ring
    rw [hs]
    push_cast
    ring

/-- For an odd decrement the wrapping countdown always reaches zero. -/
theorem exists_subIter_zero (k : Nat) (hk : Odd k) (c : Nat) (hc : c < 256) :
    ∃ t, subIter k t c = 0 := by
  have hco : Nat.Coprime k 256 := by
    have h2 : Nat.Coprime k 2 := Nat.coprime_two_right.mpr hk
    rw [show (256 : Nat) = 2 ^ 8 by norm_num]
    exact Nat.Coprime.pow_right 8 h2
  have hu : IsUnit ((k : ZMod 256)) := (ZMod.isUnit_iff_coprime k 256).mpr hco
  refine ⟨((c : ZMod 256) * (k : ZMod 256)⁻¹).val, ?_⟩
  have h1 : ((subIter k ((c : ZMod 256) * (k : ZMod 256)⁻¹).val c : Nat) :
      ZMod 256) = 0 := by
    rw [subIter_cast, ZMod.natCast_zmod_val]
    rw [mul_assoc, ZMod.inv_mul_of_unit _ hu, mul_one, sub_self]
  have h2 : (256 : Nat) ∣ subIter k ((c : ZMod 256) * (k : ZMod 256)⁻¹).val c :=
    (ZMod.natCast_zmod_eq_zero_iff_dvd _ _).mp h1
  have h3 := subIter_lt k ((c : ZMod 256) * (k : ZMod 256)⁻¹).val c hc
  omega

/-- Running the loop body from a nonzero cell whose countdown reaches
zero terminates with the cell zeroed. -/
theorem subLoop_reaches_zero (k t : Nat) :
    ∀ c, c < 256 → c ≠ 0 → subIter k t c = 0 →
      ∃ fuel st2, execute (subLoopProg k) fuel (cellState 1 c) = .done st2 ∧
        st2.mem st2.ptr = 0 := by
  induction t with
  | zero =>
    intro c _ hc0 hiter
    rw [subIter] at hiter
    exact absurd hiter hc0
  | succ t ih =>
    intro c hc hc0 hiter
    rw [subIter] at hiter
    by_cases h1 : sub8 c k = 0
    · refine ⟨3, cellState 4 0, ?_, by simp [cellState, single0]⟩
      rw [show (3 : Nat) = 2 + 1 by omega, subLoop_step_sub, h1]
      exact subLoop_step_exit k 0
    · obtain ⟨fuel, st2, hf, hz⟩ := ih (sub8 c k) (sub8_lt c k) h1 hiter
      refine ⟨fuel + 2, st2, ?_, hz⟩
      rw [show fuel + 2 = (fuel + 1) + 1 by omega, subLoop_step_sub,
        subLoop_step_jnz k fuel _ h1]
      exact hf

/-- C3, amended: for every odd decrement count `k` and every initial
value of the current cell, the loop whose body is exactly one `Sub(0,k)`
terminates with the current cell equal to zero under 8-bit wraparound;
in particular `"[-]"` optimizes to a single zero-set statement. -/
theorem C3_set_null_amended (k v : Nat) (hk : Odd k) (hv : v < 256) :
    (∃ fuel st2, execute (lower (subLoopIr k)) fuel (cellState 0 v) =
        .done st2 ∧ st2.mem st2.ptr = 0) ∧
      (parse (List.enum [91, 45, 93])).map
          (fun a => (optimize a).map Stmt.kind) =
        some [StmtKind.SetN 0] := by
  constructor
  · rw [lower_subLoopIr]
    by_cases hv0 : v = 0
    · subst hv0
      exact ⟨2, cellState 4 0, subLoop_step_jz_zero k 0,
        by simp [cellState, single0]⟩
    · obtain ⟨t, ht⟩ := exists_subIter_zero k hk v hv
      obtain ⟨fuel, st2, hf, hz⟩ := subLoop_reaches_zero k t v hv hv0 ht
      refine ⟨fuel + 1, st2, ?_, hz⟩
      rw [subLoop_step_jz k fuel v hv0]
      exact hf
  · simp [parse, List.enum, parse_go, parse_loop, parse_loop_go, PRes.relax,
      optimize, ast_to_ir, pass_group, pass_group_fold, pass_group_step,
      canMerge, pass_find_set_null, isSetNullBody, pass_set_n, window_pass,
      window_go, process_head, setNAction, pass_cancel_left_right_add_sub,
      cancelAction, pass_add_sub_offset, addSubOffsetAction, pass_move_add_to,
      moveAddBodyOffset, Stmt.kind, Stmt.span]

/-- Witness for C3's amended theorem at `k = 1`, initial value 5. -/
theorem C3_set_null_witness :
    (∃ fuel st2, execute (lower (subLoopIr 1)) fuel (cellState 0 5) =
        .done st2 ∧ st2.mem st2.ptr = 0) ∧
      (parse (List.enum [91, 45, 93])).map
          (fun a => (optimize a).map Stmt.kind) =
        some [StmtKind.SetN 0] :=
  C3_set_null_amended 1 5 ⟨0, by decide⟩ (by decide)

/-! ## Claim C7 — idempotence of the Group pass -/

/-- Two adjacent statements that the Group pass cannot coalesce. -/
def NoMergePair (a b : Stmt) : Prop := canMerge a b = none

mutual

/-- A statement all of whose loop bodies (recursively) are in Group
normal form. -/
def BodyGrouped : Stmt → Prop
  | .mk (.Loop body) _ => List.Chain' NoMergePair body ∧ GroupedList body
  | _ => True

/-- All statements of the list have recursively grouped loop bodies. -/
def GroupedList : List Stmt → Prop
  | [] => True
  | s :: rest => BodyGrouped s ∧ GroupedList rest

end

theorem GroupedList_iff (l : List Stmt) :
    GroupedList l ↔ ∀ s ∈ l, BodyGrouped s := by
  induction l with
  | nil => simp [GroupedList]
  | cons s rest ih => simp [GroupedList, ih]

theorem GroupedList_reverse (l : List Stmt) :
    GroupedList l.reverse ↔ GroupedList l := by
  rw [GroupedList_iff, GroupedList_iff]
  simp

theorem BodyGrouped_not_loop (k : StmtKind) (sp : Span)
    (hk : ∀ b, k ≠ StmtKind.Loop b) : BodyGrouped (Stmt.mk k sp) := by
  cases k with
  | Loop b => exact absurd rfl (hk b)
  | _ => simp [BodyGrouped]

/-- Nothing merges with a following `Loop`. -/
theorem canMerge_loop_right (old : Stmt) (body : List Stmt) (sp : Span) :
    canMerge old (Stmt.mk (.Loop body) sp) = none := by
  obtain ⟨ok, osp⟩ := old
  cases ok <;> simp [canMerge]

/-- The verdict of `canMerge x (Add offset ·)` does not depend on the
second statement's count or span. -/
theorem canMerge_none_add (x : Stmt) (oa : Int) (a a' : Nat) (s s' : Span)
    (h : canMerge x (Stmt.mk (.Add oa a) s) = none) :
    canMerge x (Stmt.mk (.Add oa a') s') = none := by
  obtain ⟨xk, xsp⟩ := x
  cases xk <;> simp_all [canMerge]

theorem canMerge_none_sub (x : Stmt) (oa : Int) (a a' : Nat) (s s' : Span)
    (h : canMerge x (Stmt.mk (.Sub oa a) s) = none) :
    canMerge x (Stmt.mk (.Sub oa a') s') = none := by
  obtain ⟨xk, xsp⟩ := x
  cases xk <;> simp_all [canMerge]

theorem canMerge_none_right (x : Stmt) (a a' : Nat) (s s' : Span)
    (h : canMerge x (Stmt.mk (.Right a) s) = none) :
    canMerge x (Stmt.mk (.Right a') s') = none := by
  obtain ⟨xk, xsp⟩ := x
  cases xk <;> simp_all [canMerge]

theorem canMerge_none_left (x : Stmt) (a a' : Nat) (s s' : Span)
    (h : canMerge x (Stmt.mk (.Left a) s) = none) :
    canMerge x (Stmt.mk (.Left a') s') = none := by
  obtain ⟨xk, xsp⟩ := x
  cases xk <;> simp_all [canMerge]

/-- A merged statement is never a loop, and anything that could not merge
with the old statement still cannot merge with the merged one (the merge
guards look only at the first statement's count and both offsets, which
merging preserves). -/
theorem canMerge_some (old next merged : Stmt)
    (h : canMerge old next = some merged) :
    BodyGrouped merged ∧
      ∀ x, canMerge x old = none → canMerge x merged = none := by
  rw [canMerge.eq_def] at h
  split at h
  · rename_i offset_a a osp offset_b b nsp
    split at h
    · simp only [Option.some.injEq] at h
      subst h
      exact ⟨by simp [BodyGrouped],
        fun x hx => canMerge_none_add x offset_a a _ osp _ hx⟩
    · exact absurd h (by simp)
  · rename_i offset_a a osp offset_b b nsp
    split at h
    · simp only [Option.some.injEq] at h
      subst h
      exact ⟨by simp [BodyGrouped],
        fun x hx => canMerge_none_sub x offset_a a _ osp _ hx⟩
    · exact absurd h (by simp)
  · rename_i a osp b nsp
    split at h
    · simp only [Option.some.injEq] at h
      subst h
      exact ⟨by simp [BodyGrouped],
        fun x hx => canMerge_none_right x a _ osp _ hx⟩
    · exact absurd h (by simp)
  · rename_i a osp b nsp
    split at h
    · simp only [Option.some.injEq] at h
      subst h
      exact ⟨by simp [BodyGrouped],
        fun x hx => canMerge_none_left x a _ osp _ hx⟩
    · exact absurd h (by simp)
  · exact absurd h (by simp)

/-- One fold step preserves the (reversed-adjacency) normal form of the
accumulator, provided the pushed statement's loop bodies come out grouped
(which the step guarantees via `pass_group` on the body; the hypothesis
`hbody` supplies that fact for the recursion). -/
theorem pass_group_step_grouped (acc : List Stmt) (next : Stmt)
    (h1 : List.Chain' (flip NoMergePair) acc) (h2 : GroupedList acc)
    (hbody : ∀ body sp, next = Stmt.mk (.Loop body) sp →
      List.Chain' NoMergePair (pass_group body) ∧
        GroupedList (pass_group body)) :
    List.Chain' (flip NoMergePair) (pass_group_step acc next) ∧
      GroupedList (pass_group_step acc next) := by
  obtain ⟨nk, nsp⟩ := next
  cases acc with
  | nil =>
    cases nk with
    | Loop body =>
      rw [show pass_group_step [] (Stmt.mk (.Loop body) nsp) =
          [Stmt.mk (.Loop (pass_group body)) nsp] from by
        simp [pass_group_step]]
      refine ⟨List.chain'_singleton _, ?_, trivial⟩
      show BodyGrouped (Stmt.mk (.Loop (pass_group body)) nsp)
      rw [show BodyGrouped (Stmt.mk (.Loop (pass_group body)) nsp) =
          (List.Chain' NoMergePair (pass_group body) ∧
            GroupedList (pass_group body)) from by simp [BodyGrouped]]
      exact hbody body nsp rfl
    | Add o n =>
      rw [show pass_group_step [] (Stmt.mk (.Add o n) nsp) =
          [Stmt.mk (.Add o n) nsp] from by simp [pass_group_step]]
      exact ⟨List.chain'_singleton _, by simp [BodyGrouped], trivial⟩
    | Sub o n =>
      rw [show pass_group_step [] (Stmt.mk (.Sub o n) nsp) =
          [Stmt.mk (.Sub o n) nsp] from by simp [pass_group_step]]
      exact ⟨List.chain'_singleton _, by simp [BodyGrouped], trivial⟩
    | MoveAddTo o =>
      rw [show pass_group_step [] (Stmt.mk (.MoveAddTo o) nsp) =
          [Stmt.mk (.MoveAddTo o) nsp] from by simp [pass_group_step]]
      exact ⟨List.chain'_singleton _, by simp [BodyGrouped], trivial⟩
    | Right n =>
      rw [show pass_group_step [] (Stmt.mk (.Right n) nsp) =
          [Stmt.mk (.Right n) nsp] from by simp [pass_group_step]]
      exact ⟨List.chain'_singleton _, by simp [BodyGrouped], trivial⟩
    | Left n =>
      rw [show pass_group_step [] (Stmt.mk (.Left n) nsp) =
          [Stmt.mk (.Left n) nsp] from by simp [pass_group_step]]
      exact ⟨List.chain'_singleton _, by simp [BodyGrouped], trivial⟩
    | Out =>
      rw [show pass_group_step [] (Stmt.mk .Out nsp) =
          [Stmt.mk .Out nsp] from by simp [pass_group_step]]
      exact ⟨List.chain'_singleton _, by simp [BodyGrouped], trivial⟩
    | In =>
      rw [show pass_group_step [] (Stmt.mk .In nsp) =
          [Stmt.mk .In nsp] from by simp [pass_group_step]]
      exact ⟨List.chain'_singleton _, by simp [BodyGrouped], trivial⟩
    | SetN n =>
      rw [show pass_group_step [] (Stmt.mk (.SetN n) nsp) =
          [Stmt.mk (.SetN n) nsp] from by simp [pass_group_step]]
      exact ⟨List.chain'_singleton _, by simp [BodyGrouped], trivial⟩
  | cons old older =>
    rcases hm : canMerge old (Stmt.mk nk nsp) with _ | merged
    · -- no merge: push (recursing into a loop body)
      have hpush : ∀ x : Stmt, canMerge old x = none →
          BodyGrouped x →
          List.Chain' (flip NoMergePair) (x :: old :: older) ∧
            GroupedList (x :: old :: older) := by
        intro x hx hbx
        constructor
        · rw [List.chain'_cons]
          exact ⟨hx, h1⟩
        · rw [GroupedList, GroupedList_iff]
          rw [GroupedList_iff] at h2
          exact ⟨hbx, h2⟩
      cases nk with
      | Loop body =>
        rw [show pass_group_step (old :: older) (Stmt.mk (.Loop body) nsp) =
            Stmt.mk (.Loop (pass_group body)) nsp :: old :: older from by
          simp [pass_group_step, hm]]
        refine hpush _ (canMerge_loop_right old _ nsp) ?_
        rw [show BodyGrouped (Stmt.mk (.Loop (pass_group body)) nsp) =
            (List.Chain' NoMergePair (pass_group body) ∧
              GroupedList (pass_group body)) from by simp [BodyGrouped]]
        exact hbody body nsp rfl
      | Add o n =>
        rw [show pass_group_step (old :: older) (Stmt.mk (.Add o n) nsp) =
            Stmt.mk (.Add o n) nsp :: old :: older from by
          simp [pass_group_step, hm]]
        exact hpush _ hm (by simp [BodyGrouped])
      | Sub o n =>
        rw [show pass_group_step (old :: older) (Stmt.mk (.Sub o n) nsp) =
            Stmt.mk (.Sub o n) nsp :: old :: older from by
          simp [pass_group_step, hm]]
        exact hpush _ hm (by simp [BodyGrouped])
      | MoveAddTo o =>
        rw [show pass_group_step (old :: older) (Stmt.mk (.MoveAddTo o) nsp) =
            Stmt.mk (.MoveAddTo o) nsp :: old :: older from by
          simp [pass_group_step, hm]]
        exact hpush _ hm (by simp [BodyGrouped])
      | Right n =>
        rw [show pass_group_step (old :: older) (Stmt.mk (.Right n) nsp) =
            Stmt.mk (.Right n) nsp :: old :: older from by
          simp [pass_group_step, hm]]
        exact hpush _ hm (by simp [BodyGrouped])
      | Left n =>
        rw [show pass_group_step (old :: older) (Stmt.mk (.Left n) nsp) =
            Stmt.mk (.Left n) nsp :: old :: older from by
          simp [pass_group_step, hm]]
        exact hpush _ hm (by simp [BodyGrouped])
      | Out =>
        rw [show pass_group_step (old :: older) (Stmt.mk .Out nsp) =
            Stmt.mk .Out nsp :: old :: older from by
          simp [pass_group_step, hm]]
        exact hpush _ hm (by simp [BodyGrouped])
      | In =>
        rw [show pass_group_step (old :: older) (Stmt.mk .In nsp) =
            Stmt.mk .In nsp :: old :: older from by
          simp [pass_group_step, hm]]
        exact hpush _ hm (by simp [BodyGrouped])
      | SetN n =>
        rw [show pass_group_step (old :: older) (Stmt.mk (.SetN n) nsp) =
            Stmt.mk (.SetN n) nsp :: old :: older from by
          simp [pass_group_step, hm]]
        exact hpush _ hm (by simp [BodyGrouped])
    · -- merge: the head is replaced; older neighbours stay unmergeable
      have hstep : pass_group_step (old :: older) (Stmt.mk nk nsp) =
          merged :: older := by
        cases nk <;> simp [pass_group_step, hm]
      rw [hstep]
      obtain ⟨hbg, hstable⟩ := canMerge_some old (Stmt.mk nk nsp) merged hm
      constructor
      · rw [List.chain'_cons']
        rw [List.chain'_cons'] at h1
        refine ⟨fun b hb => hstable b (h1.1 b hb), h1.2⟩
      · rw [GroupedList]
        rw [GroupedList] at h2
        exact ⟨hbg, h2.2⟩

/-- The fold of `pass_group` keeps the accumulator in normal form
(adjacent reversed pairs unmergeable, loop bodies recursively grouped).
Strong induction on the total weight covers the recursion into loop
bodies. -/
theorem pass_group_fold_grouped (n : Nat) :
    ∀ l : List Stmt, listWeight l ≤ n →
      ∀ acc : List Stmt, List.Chain' (flip NoMergePair) acc →
        GroupedList acc →
        List.Chain' (flip NoMergePair) (pass_group_fold acc l) ∧
          GroupedList (pass_group_fold acc l) := by
  induction n with
  | zero =>
    intro l hl acc h1 h2
    have hnil : l = [] := by
      cases l with
      | nil => rfl
      | cons s rest => rw [listWeight] at hl; omega
    subst hnil
    rw [show pass_group_fold acc [] = acc from by simp [pass_group_fold]]
    exact ⟨h1, h2⟩
  | succ n ih =>
    intro l hl acc h1 h2
    cases l with
    | nil =>
      rw [show pass_group_fold acc [] = acc from by simp [pass_group_fold]]
      exact ⟨h1, h2⟩
    | cons next rest =>
      rw [show pass_group_fold acc (next :: rest) =
          pass_group_fold (pass_group_step acc next) rest from by
        simp [pass_group_fold]]
      rw [listWeight] at hl
      have hstep := pass_group_step_grouped acc next h1 h2 ?_
      · exact ih rest (by omega) _ hstep.1 hstep.2
      · intro body sp hnext
        subst hnext
        rw [show pass_group body = (pass_group_fold [] body).reverse from by
          simp [pass_group]]
        have hb := ih body ?_ [] (by simp) trivial
        · exact ⟨List.chain'_reverse.mpr hb.1, (GroupedList_reverse _).mpr hb.2⟩
        · rw [show stmtWeight (Stmt.mk (.Loop body) sp) = 1 + listWeight body
            from by simp [stmtWeight]] at hl
          omega

/-- The output of `pass_group` is in Group normal form. -/
theorem pass_group_grouped (l : List Stmt) :
    List.Chain' NoMergePair (pass_group l) ∧ GroupedList (pass_group l) := by
  rw [show pass_group l = (pass_group_fold [] l).reverse from by
    simp [pass_group]]
  have h := pass_group_fold_grouped (listWeight l) l (Nat.le_refl _) []
    (by simp) trivial
  exact ⟨List.chain'_reverse.mpr h.1, (GroupedList_reverse _).mpr h.2⟩

/-- On a list already in Group normal form the fold only reverses onto
the accumulator: each statement is pushed unchanged. -/
theorem pass_group_fold_fixed (n : Nat) :
    ∀ l : List Stmt, listWeight l ≤ n →
      List.Chain' NoMergePair l → GroupedList l →
      ∀ acc : List Stmt,
        (∀ a b l1 l2, acc = a :: l1 → l = b :: l2 → canMerge a b = none) →
        pass_group_fold acc l = l.reverse ++ acc := by
  induction n with
  | zero =>
    intro l hl hc hg acc hacc
    have hnil : l = [] := by
      cases l with
      | nil => rfl
      | cons s rest => rw [listWeight] at hl; omega
    subst hnil
    simp [pass_group_fold]
  | succ n ih =>
    intro l hl hc hg acc hacc
    cases l with
    | nil => simp [pass_group_fold]
    | cons b rest =>
      rw [listWeight] at hl
      -- the pushed statement is unchanged: a loop body in normal form is
      -- a fixed point of the recursive pass
      have hself : ∀ body sp, b = Stmt.mk (.Loop body) sp →
          pass_group body = body := by
        intro body sp hb
        subst hb
        have hbg : BodyGrouped (Stmt.mk (.Loop body) sp) := by
          rw [GroupedList] at hg
          exact hg.1
        rw [show BodyGrouped (Stmt.mk (.Loop body) sp) =
            (List.Chain' NoMergePair body ∧ GroupedList body) from by
          simp [BodyGrouped]] at hbg
        rw [show pass_group body = (pass_group_fold [] body).reverse from by
          simp [pass_group]]
        rw [ih body ?_ hbg.1 hbg.2 [] (by intro a c l1 l2 ha _; exact absurd ha (by simp))]
        · simp
        · rw [show stmtWeight (Stmt.mk (.Loop body) sp) = 1 + listWeight body
            from by simp [stmtWeight]] at hl
          omega
      have hstep : pass_group_step acc b = b :: acc := by
        obtain ⟨bk, bsp⟩ := b
        cases acc with
        | nil =>
          cases bk with
          | Loop body => simp [pass_group_step, hself body bsp rfl]
          | _ => simp [pass_group_step]
        | cons a older =>
          have hm : canMerge a (Stmt.mk bk bsp) = none :=
            hacc a (Stmt.mk bk bsp) older rest rfl rfl
          cases bk with
          | Loop body => simp [pass_group_step, hm, hself body bsp rfl]
          | _ => simp [pass_group_step, hm]
      rw [show pass_group_fold acc (b :: rest) =
          pass_group_fold (pass_group_step acc b) rest from by
        simp [pass_group_fold]]
      rw [hstep]
      rw [ih rest (by omega) (List.Chain'.tail hc)
        (by rw [GroupedList] at hg; exact hg.2) (b :: acc) ?_]
      · simp
      · intro a c l1 l2 ha hrest
        rw [List.cons.injEq] at ha
        subst hrest
        rw [← ha.1]
        rw [List.chain'_cons] at hc
        exact hc.1

/-- A list in Group normal form is a fixed point of `pass_group`. -/
theorem pass_group_fixed (l : List Stmt)
    (hc : List.Chain' NoMergePair l) (hg : GroupedList l) :
    pass_group l = l := by
  rw [show pass_group l = (pass_group_fold [] l).reverse from by
    simp [pass_group]]
  rw [pass_group_fold_fixed (listWeight l) l (Nat.le_refl _) hc hg []
    (by intro a b l1 l2 ha _; exact absurd ha (by simp))]
  simp

/-- C7: on any IR obtained by lowering a parsed syntax tree (indeed on any
statement list), running the Group pass twice produces the same list as
running it once. -/
theorem C7_group_idempotent (ast : List (Instr × Span)) :
    pass_group (pass_group (ast_to_ir ast)) = pass_group (ast_to_ir ast) := by
  have h := pass_group_grouped (ast_to_ir ast)
  exact pass_group_fixed _ h.1 h.2

/-- Witness for C7 at the empty program. -/
theorem C7_group_idempotent_witness :
    pass_group (pass_group (ast_to_ir [])) = pass_group (ast_to_ir []) :=
  C7_group_idempotent []

end Brainfuck
